import Mathlib

/-!
A shallow embedding of skvx (include/private/SkVx.h): fixed-width SIMD
vectors `Vec<N,T>` represented by the source's recursive lo/hi structure,
with the portable recursive operations, a model of the native
vector-extension path, and the colour / half-float helpers.

Machine integers are modelled as `Nat` bit patterns with an explicit
`% 2^w` wherever C++ unsigned overflow or truncation matters.
-/

namespace skvx

/-- `Vec T n` models `skvx::Vec<N,T>` with `N = 2^n`: for `N = 1` the value
is the scalar itself (`val`, SkVx.h line 117), for larger `N` a pair of
half-width vectors `lo, hi` (line 80). -/
def Vec (T : Type) : Nat → Type
  | 0 => T
  | n + 1 => Vec T n × Vec T n

/-- `join(lo,hi)` concatenates two half-width vectors (SkVx.h lines 161-166). -/
def join {T : Type} {n : Nat} (lo hi : Vec T n) : Vec T (n + 1) := (lo, hi)

/-- The broadcast constructor `Vec(U x) : lo(x), hi(x)` (lines 92 and 124). -/
def splat {T : Type} (x : T) : (n : Nat) → Vec T n
  | 0 => x
  | n + 1 => (splat x n, splat x n)

/-- `operator[]`: `i < N/2 ? lo[i] : hi[i-N/2]`, the `N = 1` base case
ignoring the index entirely (lines 102 and 128).  The index is a C++ `int`,
so it is modelled as `Int`. -/
def get {T : Type} : {n : Nat} → Vec T n → Int → T
  | 0, x, _ => x
  | n + 1, x, i => if i < (2 ^ n : Int) then get x.1 i else get x.2 (i - 2 ^ n)

/-- The flat lane view of the memory layout: lane `i` of the `T vec[N]`
array the struct is laid out as, lo in the low half (lines 74 and 18). -/
def lanes {T : Type} : {n : Nat} → Vec T n → Nat → T
  | 0, x, _ => x
  | n + 1, x, i => if i < 2 ^ n then lanes x.1 i else lanes x.2 (i - 2 ^ n)

/-- `Vec::Load` from a lane array: lo loads from offset 0 and hi from
offset `N/2` (lines 98-99 and 105-109). -/
def fromFun {T : Type} : (Nat → T) → (n : Nat) → Vec T n
  | f, 0 => f 0
  | f, n + 1 => (fromFun f n, fromFun (fun i => f (i + 2 ^ n)) n)

/-- The initializer-list constructor (lines 94-100): `T vals[N] = {0}`
receives `min(xs.size(), N)` leading values of the list by `memcpy`, then
`lo`/`hi` load from `vals + 0` / `vals + N/2`.  The separate `N = 1`
constructor `val(xs.size() ? *xs.begin() : 0)` (line 126) is the same
formula at `n = 0`. -/
def ofList {T : Type} [Zero T] (xs : List T) (n : Nat) : Vec T n :=
  fromFun (fun i => if i < min xs.length (2 ^ n) then xs.getD i 0 else 0) n

/-- The portable path for the binary operators `+ - * / ^ & |`: the scalar
operation at `N = 1` (lines 227-234), `join(op(x.lo,y.lo), op(x.hi,y.hi))`
for `N > 1` (lines 251-258). -/
def binOp {A B C : Type} (f : A → B → C) :
    {n : Nat} → Vec A n → Vec B n → Vec C n
  | 0, x, y => f x y
  | _ + 1, x, y => join (binOp f x.1 y.1) (binOp f x.2 y.2)

/-- The portable path for the unary operators `! - ~` (lines 236-238 and
260-262), parameterised by the scalar map. -/
def unOp {A B : Type} (f : A → B) : {n : Nat} → Vec A n → Vec B n
  | 0, x => f x
  | _ + 1, x => join (unOp f x.1) (unOp f x.2)

/-- The portable path for `<< >>` by a scalar bit count (lines 240-241 and
264-265). -/
def shiftOp {A : Type} (f : A → Nat → A) : {n : Nat} → Vec A n → Nat → Vec A n
  | 0, x, k => f x k
  | _ + 1, x, k => join (shiftOp f x.1 k) (shiftOp f x.2 k)

/-- The portable path for the six comparisons: `x.val OP y.val ? ~0 : 0`
producing the mask element type at `N = 1` (lines 243-248), recursion on
halves for `N > 1` (lines 267-272).  `top` and `zero` are the `~0` and `0`
bit patterns of `M<T>`. -/
def cmpOp {A S : Type} (f : A → A → Bool) (top zero : S) :
    {n : Nat} → Vec A n → Vec A n → Vec S n
  | 0, x, y => if f x y then top else zero
  | _ + 1, x, y => join (cmpOp f top zero x.1 y.1) (cmpOp f top zero x.2 y.2)

/-- `cast<D>(src)`: the C-cast applied to each lane; scalar conversion at
`N = 1` (line 447), recursion on halves in the portable branch (line 454). -/
def cast {S T : Type} (g : S → T) : {n : Nat} → Vec S n → Vec T n
  | 0, x => g x
  | _ + 1, x => join (cast g x.1) (cast g x.2)

/-- `w`-bit unsigned machine addition (wraps mod `2^w`). -/
def mAdd (w a b : Nat) : Nat := (a + b) % 2 ^ w

/-- `w`-bit unsigned machine subtraction (wraps mod `2^w`). -/
def mSub (w a b : Nat) : Nat := (a + (2 ^ w - b % 2 ^ w)) % 2 ^ w

/-- `w`-bit unsigned machine multiplication (wraps mod `2^w`). -/
def mMul (w a b : Nat) : Nat := a * b % 2 ^ w

/-- Unsigned machine division (the quotient never exceeds the dividend). -/
def mDiv (a b : Nat) : Nat := a / b

/-- `w`-bit left shift: the low `w` bits of `a * 2^k`. -/
def mShl (w a k : Nat) : Nat := a * 2 ^ k % 2 ^ w

/-- Unsigned right shift. -/
def mShr (a k : Nat) : Nat := a / 2 ^ k

/-- `w`-bit bitwise complement `~a`: flip all `w` bits of the pattern. -/
def mNot (w a : Nat) : Nat := a ^^^ (2 ^ w - 1)

/-- Scalar bitwise AND on lane bit patterns. -/
def mAnd (a b : Nat) : Nat := a &&& b

/-- Scalar bitwise OR on lane bit patterns. -/
def mOr (a b : Nat) : Nat := a ||| b

/-- Scalar bitwise XOR on lane bit patterns. -/
def mXor (a b : Nat) : Nat := a ^^^ b

/-- `to_vext(v)`: reinterpret a `Vec` as the compiler vector type `VExt`,
which shares its memory layout, so lane `i` of the result is lane `i` of
`v` (SkVx.h line 195). -/
def to_vext {T : Type} {n : Nat} (x : Vec T n) : Nat → T := lanes x

/-- `to_vec(u)`: reinterpret a compiler vector back as a `Vec` (line 196). -/
def to_vec {T : Type} (u : Nat → T) (n : Nat) : Vec T n := fromFun u n

/-- Modelled from the spec: the semantics of a Clang/GCC vector-extension
binary operator, which is not part of this repository, applies the scalar
operation to each lane independently (spec 4.2, native path). -/
def vextBin {A B C : Type} (f : A → B → C) (u : Nat → A) (v : Nat → B) :
    Nat → C := fun i => f (u i) (v i)

/-- Modelled from the spec: lanewise native unary operator (spec 4.2). -/
def vextUn {A B : Type} (f : A → B) (u : Nat → A) : Nat → B := fun i => f (u i)

/-- Modelled from the spec: lanewise native shift by a scalar count
(spec 4.2). -/
def vextShift {A : Type} (f : A → Nat → A) (u : Nat → A) (k : Nat) :
    Nat → A := fun i => f (u i) k

/-- Modelled from the spec: a native vector comparison fills each lane of
the mask with all-ones or all-zeros per the lane-wise truth (spec 4.3);
`top` and `zero` are those two patterns. -/
def vextCmp {A S : Type} (f : A → A → Bool) (top zero : S)
    (u v : Nat → A) : Nat → S := fun i => if f (u i) (v i) then top else zero

/-- The native path for `+ - * / ^ & |`:
`to_vec<N,T>(to_vext(x) OP to_vext(y))` (lines 198-205). -/
def nativeBin {A B C : Type} (f : A → B → C) {n : Nat}
    (x : Vec A n) (y : Vec B n) : Vec C n :=
  to_vec (vextBin f (to_vext x) (to_vext y)) n

/-- The native path for `! - ~`: `to_vec<N,T>(OP to_vext(x))`
(lines 207-209). -/
def nativeUn {A B : Type} (f : A → B) {n : Nat} (x : Vec A n) : Vec B n :=
  to_vec (vextUn f (to_vext x)) n

/-- The native path for `<< >>`: `to_vec<N,T>(to_vext(x) OP bits)`
(lines 211-212). -/
def nativeShift {A : Type} (f : A → Nat → A) {n : Nat} (x : Vec A n)
    (k : Nat) : Vec A n :=
  to_vec (vextShift f (to_vext x) k) n

/-- The native path for the six comparisons:
`bit_pun<Vec<N,M<T>>>(to_vext(x) OP to_vext(y))` (lines 214-219). -/
def nativeCmp {A S : Type} (f : A → A → Bool) (top zero : S) {n : Nat}
    (x y : Vec A n) : Vec S n :=
  to_vec (vextCmp f top zero (to_vext x) (to_vext y)) n

/-- `if_then_else(cond, t, e)` (SkVx.h lines 279-283 and 315-347): with the
platform blend intrinsics compiled out, the `N = 1` case and the `N <= 4`
default both compute the pure bit identity
`(cond & bit_pun(t)) | (~cond & bit_pun(e))` on `w`-bit lane patterns
(`bit_pun` is the identity on patterns), while `N > 4` recurses onto
halves (lines 340-343). -/
def if_then_else (w : Nat) :
    {n : Nat} → Vec Nat n → Vec Nat n → Vec Nat n → Vec Nat n
  | 0, c, t, e => mOr (mAnd c t) (mAnd (mNot w c) e)
  | n + 1, c, t, e =>
    if 2 ^ (n + 1) > 4 then
      join (if_then_else w c.1 t.1 e.1) (if_then_else w c.2 t.2 e.2)
    else
      binOp mOr (binOp mAnd c t) (binOp mAnd (unOp (mNot w) c) e)

/-- The C++ element types distinguished by the mask translation
(SkVx.h lines 154-158). -/
inductive CTy
  | u8 | u16 | u32 | u64 | i8 | i16 | i32 | i64 | f32 | f64
deriving DecidableEq

/-- `Mask<T>`: `int32_t` for `float`, `int64_t` for `double`, otherwise
`T` itself (lines 155-158). -/
def Mask : CTy → CTy
  | .f32 => .i32
  | .f64 => .i64
  | t => t

/-- Lane width in bits of each element type. -/
def width : CTy → Nat
  | .u8 => 8
  | .i8 => 8
  | .u16 => 16
  | .i16 => 16
  | .u32 => 32
  | .i32 => 32
  | .u64 => 64
  | .i64 => 64
  | .f32 => 32
  | .f64 => 64

/-- `shuffle<Ix...>(x)` (SkVx.h lines 465-472): the portable branch
constructs the result from the initializer list `{ x[Ix]... }`, whose
`k`-th entry is `x[Ix[k]]` via `operator[]`; the output width `2^m` is the
number of indices supplied (any width the type admits). -/
def shuffle {T : Type} [Zero T] (ixs : List Int) {n : Nat} (x : Vec T n)
    (m : Nat) : Vec T m :=
  ofList (ixs.map (fun j => get x j)) m

/-- `div255(x) = cast<uint8_t>((x + 127) / 255)` on `uint16_t` lanes
(SkVx.h lines 562-566): the broadcast `+ 127` wraps mod `2^16` and the
cast truncates mod `2^8`. -/
def div255 {n : Nat} (x : Vec Nat n) : Vec Nat n :=
  cast (· % 2 ^ 8) (binOp mDiv (binOp (mAdd 16) x (splat 127 n)) (splat 255 n))

/-- `mull(x,y)` without NEON (lines 604-611): cast both `uint8_t` operands
up to `uint16_t` lanes (value-preserving) and multiply on 16-bit lanes. -/
def mull {n : Nat} (x y : Vec Nat n) : Vec Nat n :=
  binOp (mMul 16) (cast (fun a => a) x) (cast (fun a => a) y)

/-- `approx_scale(x,y) = cast<uint8_t>((X*Y + X) / 256)` where `X` and `Y`
are the operands cast up to `uint16_t` lanes (lines 570-577). -/
def approx_scale {n : Nat} (x y : Vec Nat n) : Vec Nat n :=
  cast (· % 2 ^ 8)
    (binOp mDiv
      (binOp (mAdd 16)
        (binOp (mMul 16) (cast (fun a => a) x) (cast (fun a => a) y))
        (cast (fun a => a) x))
      (splat 256 n))

/-- `to_half_finite_ftz` (SkVx.h lines 498-506), on `float` bit patterns:
`sem = bit_pun<uint32>(x)`, `s = sem & 0x80000000`, `em = sem ^ s`,
`is_denorm = em < 0x38800000` (a `uint32` mask vector), and the result is
`cast<uint16_t>(if_then_else(is_denorm, 0, (s>>16) + (em>>13) - ((127-15)<<10)))`.
All arithmetic is on `uint32` lanes and `bit_pun` is the identity on bit
patterns. -/
def to_half_finite_ftz {n : Nat} (x : Vec Nat n) : Vec Nat n :=
  let sem := x
  let s := binOp mAnd sem (splat 0x80000000 n)
  let em := binOp mXor sem s
  let is_denorm :=
    cmpOp (fun a b => decide (a < b)) (2 ^ 32 - 1) 0 em (splat 0x38800000 n)
  cast (· % 2 ^ 16)
    (if_then_else 32 is_denorm (splat 0 n)
      (binOp (mSub 32)
        (binOp (mAdd 32) (shiftOp mShr s 16) (shiftOp mShr em 13))
        (splat ((127 - 15) * 2 ^ 10) n)))

/-- `from_half_finite_ftz` (SkVx.h lines 507-515), on 16-bit half-float
patterns: `wide = cast<uint32_t>(x)`, `s = wide & 0x8000`,
`em = wide ^ s`, `is_denorm = em < 0x0400`, and the result is
`if_then_else(is_denorm, 0.0f, bit_pun<float>((s<<16) + (em<<13) + ((127-15)<<23)))`
on `uint32` lanes, with `bit_pun` the identity and `0.0f` the zero
pattern. -/
def from_half_finite_ftz {n : Nat} (x : Vec Nat n) : Vec Nat n :=
  let wide := cast (fun a => a) x
  let s := binOp mAnd wide (splat 0x8000 n)
  let em := binOp mXor wide s
  let is_denorm :=
    cmpOp (fun a b => decide (a < b)) (2 ^ 32 - 1) 0 em (splat 0x0400 n)
  if_then_else 32 is_denorm (splat 0 n)
    (binOp (mAdd 32)
      (binOp (mAdd 32) (shiftOp (mShl 32) s 16) (shiftOp (mShl 32) em 13))
      (splat ((127 - 15) * 2 ^ 23) n))

/-! Lane-level characterisation of the portable operations.  These hold
for every `Nat` index because both sides walk the same lo/hi path. -/

theorem lanes_binOp {A B C : Type} (f : A → B → C) :
    ∀ {n : Nat} (x : Vec A n) (y : Vec B n) (i : Nat),
      lanes (binOp f x y) i = f (lanes x i) (lanes y i)
  | 0, _, _, _ => rfl
  | n + 1, x, y, i => by
    by_cases h : i < 2 ^ n <;>
      simp [binOp, join, lanes, h, lanes_binOp f x.1 y.1, lanes_binOp f x.2 y.2]

theorem lanes_unOp {A B : Type} (f : A → B) :
    ∀ {n : Nat} (x : Vec A n) (i : Nat), lanes (unOp f x) i = f (lanes x i)
  | 0, _, _ => rfl
  | n + 1, x, i => by
    by_cases h : i < 2 ^ n <;>
      simp [unOp, join, lanes, h, lanes_unOp f x.1, lanes_unOp f x.2]

theorem lanes_shiftOp {A : Type} (f : A → Nat → A) :
    ∀ {n : Nat} (x : Vec A n) (k i : Nat),
      lanes (shiftOp f x k) i = f (lanes x i) k
  | 0, _, _, _ => rfl
  | n + 1, x, k, i => by
    by_cases h : i < 2 ^ n <;>
      simp [shiftOp, join, lanes, h, lanes_shiftOp f x.1, lanes_shiftOp f x.2]

theorem lanes_cmpOp {A S : Type} (f : A → A → Bool) (top zero : S) :
    ∀ {n : Nat} (x y : Vec A n) (i : Nat),
      lanes (cmpOp f top zero x y) i =
        if f (lanes x i) (lanes y i) then top else zero
  | 0, _, _, _ => rfl
  | n + 1, x, y, i => by
    by_cases h : i < 2 ^ n <;>
      simp [cmpOp, join, lanes, h, lanes_cmpOp f top zero x.1 y.1,
        lanes_cmpOp f top zero x.2 y.2]

theorem lanes_cast {S T : Type} (g : S → T) :
    ∀ {n : Nat} (x : Vec S n) (i : Nat), lanes (cast g x) i = g (lanes x i)
  | 0, _, _ => rfl
  | n + 1, x, i => by
    by_cases h : i < 2 ^ n <;>
      simp [cast, join, lanes, h, lanes_cast g x.1, lanes_cast g x.2]

theorem lanes_splat {T : Type} (x : T) :
    ∀ (n : Nat) (i : Nat), lanes (splat x n) i = x
  | 0, _ => rfl
  | n + 1, i => by
    by_cases h : i < 2 ^ n <;>
      simp [splat, lanes, h, lanes_splat x n]

theorem lanes_fromFun {T : Type} :
    ∀ {n : Nat} (f : Nat → T) (i : Nat), i < 2 ^ n →
      lanes (fromFun f n) i = f i
  | 0, f, i, hi => by
    interval_cases i
    rfl
  | n + 1, f, i, hi => by
    by_cases h : i < 2 ^ n
    · simpa [fromFun, lanes, h] using lanes_fromFun f i h
    · have hp : 2 ^ (n + 1) = 2 ^ n * 2 := Nat.pow_succ ..
      have hlt : i - 2 ^ n < 2 ^ n := by omega
      have heq : i - 2 ^ n + 2 ^ n = i := by omega
      have hrec := lanes_fromFun (n := n) (fun j => f (j + 2 ^ n)) (i - 2 ^ n) hlt
      simp only [fromFun, lanes, h, if_false]
      rw [hrec]
      show f (i - 2 ^ n + 2 ^ n) = f i
      rw [heq]

theorem lanes_if_then_else (w : Nat) :
    ∀ {n : Nat} (c t e : Vec Nat n) (i : Nat),
      lanes (if_then_else w c t e) i =
        mOr (mAnd (lanes c i) (lanes t i))
          (mAnd (mNot w (lanes c i)) (lanes e i))
  | 0, _, _, _, _ => rfl
  | n + 1, c, t, e, i => by
    by_cases h4 : 2 ^ (n + 1) > 4
    · by_cases h : i < 2 ^ n <;>
        simp [if_then_else, h4, join, lanes, h,
          lanes_if_then_else w c.1 t.1 e.1, lanes_if_then_else w c.2 t.2 e.2]
    · simp [if_then_else, h4, lanes_binOp, lanes_unOp]

/-- `operator[]` agrees with the flat lane view on in-range indices. -/
theorem get_natCast {T : Type} :
    ∀ {n : Nat} (x : Vec T n) (i : Nat), i < 2 ^ n →
      get x (i : Int) = lanes x i
  | 0, _, _, _ => rfl
  | n + 1, x, i, hi => by
    by_cases h : i < 2 ^ n
    · simp only [get, lanes, h, if_true]
      rw [if_pos (by exact_mod_cast h)]
      exact get_natCast x.1 i h
    · have hp : 2 ^ (n + 1) = 2 ^ n * 2 := Nat.pow_succ ..
      have hle : 2 ^ n ≤ i := Nat.le_of_not_lt h
      have hlt : i - 2 ^ n < 2 ^ n := by omega
      have hcast : ((i - 2 ^ n : Nat) : Int) = (i : Int) - 2 ^ n := by
        rw [Nat.cast_sub hle]
        push_cast
        ring
      simp only [get, lanes, h, if_false]
      rw [if_neg (by exact_mod_cast h), ← hcast]
      exact get_natCast x.2 (i - 2 ^ n) hlt

/-- A `Vec` equals the vector rebuilt from any function agreeing with its
lanes on `[0, N)`. -/
theorem fromFun_eq_of_lanes {T : Type} :
    ∀ {n : Nat} (g : Nat → T) (v : Vec T n),
      (∀ i, i < 2 ^ n → g i = lanes v i) → fromFun g n = v
  | 0, g, v, h => h 0 (by norm_num)
  | n + 1, g, v, h => by
    have hp : 2 ^ (n + 1) = 2 ^ n * 2 := Nat.pow_succ ..
    have h1 : fromFun g n = v.1 := by
      refine fromFun_eq_of_lanes g v.1 fun i hi => ?_
      rw [h i (by omega)]
      simp [lanes, hi]
    have h2 : fromFun (fun i => g (i + 2 ^ n)) n = v.2 := by
      refine fromFun_eq_of_lanes _ v.2 fun i hi => ?_
      show g (i + 2 ^ n) = lanes v.2 i
      rw [h (i + 2 ^ n) (by omega)]
      have hni : ¬ i + 2 ^ n < 2 ^ n := by omega
      simp [lanes, hni]
    show (fromFun g n, fromFun (fun i => g (i + 2 ^ n)) n) = v
    exact Prod.ext h1 h2

theorem get_of_ge {T : Type} :
    ∀ {n : Nat} (x : Vec T n) (i : Int), (2 ^ n : Int) ≤ i →
      get x i = lanes x (2 ^ n - 1)
  | 0, _, _, _ => rfl
  | n + 1, x, i, hi => by
    have hp : (2 : Int) ^ (n + 1) = 2 ^ n * 2 := by ring
    have hpos : (0 : Int) < 2 ^ n := by positivity
    have hni : ¬ i < (2 ^ n : Int) := by omega
    have hrec := get_of_ge x.2 (i - 2 ^ n) (by omega)
    have hq : 2 ^ (n + 1) = 2 ^ n * 2 := Nat.pow_succ ..
    have hnn : ¬ 2 ^ (n + 1) - 1 < 2 ^ n := by
      have := Nat.one_le_two_pow (n := n)
      omega
    simp only [get, lanes, hni, hnn, if_false]
    rw [hrec]
    congr 1
    omega

theorem get_of_neg {T : Type} :
    ∀ {n : Nat} (x : Vec T n) (i : Int), i < 0 → get x i = lanes x 0
  | 0, _, _, _ => rfl
  | n + 1, x, i, hi => by
    have hpos : (0 : Int) < 2 ^ n := by positivity
    have h0 : 0 < 2 ^ n := Nat.pos_pow_of_pos n (by norm_num)
    simp only [get, lanes, if_pos (show i < (2 ^ n : Int) by omega), if_pos h0]
    exact get_of_neg x.1 i hi

/-- In-range lanes of an initializer-list construction hold the listed
values, defaulting to zero past the end of the list. -/
theorem get_ofList {T : Type} [Zero T] (n : Nat) (xs : List T) (i : Nat)
    (hi : i < 2 ^ n) : get (ofList xs n) (i : Int) = xs.getD i 0 := by
  rw [get_natCast _ i hi, ofList, lanes_fromFun _ i hi]
  by_cases h : i < xs.length
  · rw [if_pos (by omega)]
  · rw [if_neg (by omega), List.getD_eq_default _ _ (by omega)]

/-- The scalar content of the select bit identity: on an all-ones or
all-zeros `w`-bit condition pattern it returns the untouched bit pattern
of the selected operand. -/
theorem select_bits (w c t e : Nat) (hc : c = 0 ∨ c = 2 ^ w - 1)
    (ht : t < 2 ^ w) (he : e < 2 ^ w) :
    mOr (mAnd c t) (mAnd (mNot w c) e) = if c = 2 ^ w - 1 then t else e := by
  have h1 : 1 ≤ 2 ^ w := Nat.one_le_two_pow
  rcases hc with rfl | rfl
  · by_cases h0 : (0 : Nat) = 2 ^ w - 1
    · have hw : 2 ^ w = 1 := by omega
      have ht0 : t = 0 := by omega
      have he0 : e = 0 := by omega
      subst ht0 he0
      simp [mOr, mAnd, mNot]
    · have hand : (2 ^ w - 1) &&& e = e := by
        rw [Nat.and_comm]
        exact Nat.and_pow_two_sub_one_of_lt_two_pow he
      simp [mOr, mAnd, mNot, h0, hand]
  · have hand : (2 ^ w - 1) &&& t = t := by
      rw [Nat.and_comm]
      exact Nat.and_pow_two_sub_one_of_lt_two_pow ht
    simp [mOr, mAnd, mNot, hand]

/-- `round(x/255)` over the rationals is exactly the integer `(x+127)/255`. -/
theorem round_div255_eq (a : Nat) :
    round ((a : ℚ) / 255) = (((a + 127) / 255 : Nat) : Int) := by
  have h1 : (a : ℚ) / 255 + 1 / 2 = ((2 * a + 255 : Nat) : ℚ) / ((510 : Nat) : ℚ) := by
    push_cast
    ring
  rw [round_eq, h1, Rat.floor_natCast_div_natCast, ← Int.natCast_div]
  norm_cast
  omega

theorem get_div255 {n : Nat} (x : Vec Nat n) (i : Nat) (hi : i < 2 ^ n) :
    get (div255 x) (i : Int) = (lanes x i + 127) % 2 ^ 16 / 255 % 2 ^ 8 := by
  rw [get_natCast _ i hi]
  simp [div255, lanes_cast, lanes_binOp, lanes_splat, mAdd, mDiv]

theorem lanes_mull {n : Nat} (x y : Vec Nat n) (i : Nat) :
    lanes (mull x y) i = lanes x i * lanes y i % 2 ^ 16 := by
  simp [mull, lanes_binOp, lanes_cast, mMul]

theorem get_approx_scale {n : Nat} (x y : Vec Nat n) (i : Nat)
    (hi : i < 2 ^ n) :
    get (approx_scale x y) (i : Int) =
      (lanes x i * lanes y i % 2 ^ 16 + lanes x i) % 2 ^ 16 / 256 % 2 ^ 8 := by
  rw [get_natCast _ i hi]
  simp [approx_scale, lanes_cast, lanes_binOp, lanes_splat, mAdd, mMul, mDiv]

theorem and_two_pow_of_add {k s u : Nat} (hs : s ≤ 1) (hu : u < 2 ^ k) :
    (s * 2 ^ k + u) &&& 2 ^ k = s * 2 ^ k := by
  interval_cases s
  · simp only [Nat.zero_mul, Nat.zero_add]
    rw [Nat.and_two_pow, Nat.testBit_lt_two_pow hu]
    simp
  · simp only [Nat.one_mul]
    rw [Nat.and_two_pow, Nat.testBit_two_pow_add_eq, Nat.testBit_lt_two_pow hu]
    simp

theorem xor_two_pow_of_add {k s u : Nat} (hs : s ≤ 1) (hu : u < 2 ^ k) :
    (s * 2 ^ k + u) ^^^ s * 2 ^ k = u := by
  interval_cases s
  · simp
  · simp only [Nat.one_mul]
    apply Nat.eq_of_testBit_eq
    intro j
    rcases lt_trichotomy j k with hj | rfl | hj
    · rw [Nat.testBit_xor, Nat.testBit_two_pow_add_gt hj,
        Nat.testBit_two_pow_of_ne (Nat.ne_of_gt hj)]
      simp
    · rw [Nat.testBit_xor, Nat.testBit_two_pow_add_eq, Nat.testBit_two_pow_self,
        Nat.testBit_lt_two_pow hu]
      simp
    · have hp : 2 ^ (k + 1) = 2 ^ k * 2 := Nat.pow_succ ..
      have h2j : 2 ^ (k + 1) ≤ 2 ^ j := Nat.pow_le_pow_right (by norm_num) hj
      have h1 : 2 ^ k + u < 2 ^ j := by omega
      have h2 : u < 2 ^ j := by omega
      rw [Nat.testBit_xor, Nat.testBit_lt_two_pow h1,
        Nat.testBit_two_pow_of_ne (Nat.ne_of_lt hj), Nat.testBit_lt_two_pow h2]
      rfl

theorem lanes_from_half_normal {n : Nat} (x : Vec Nat n) (i : Nat)
    (s u : Nat) (hs : s ≤ 1) (hu : u < 2 ^ 15) (h10 : 2 ^ 10 ≤ u)
    (hx : lanes x i = s * 2 ^ 15 + u) :
    lanes (from_half_finite_ftz x) i =
      s * 2 ^ 31 + (u + 114688) * 2 ^ 13 := by
  simp only [from_half_finite_ftz, lanes_if_then_else, lanes_binOp,
    lanes_cmpOp, lanes_shiftOp, lanes_splat, lanes_cast, hx]
  simp only [mAnd, mXor, mOr, mNot, mAdd, mShl, decide_eq_true_eq]
  rw [show (32768 : Nat) = 2 ^ 15 from by norm_num]
  rw [and_two_pow_of_add hs hu, xor_two_pow_of_add hs hu]
  rw [if_neg (by omega)]
  simp only [Nat.zero_xor, Nat.zero_and, Nat.and_zero, Nat.zero_or, Nat.or_zero]
  rw [Nat.and_comm, Nat.and_pow_two_sub_one_eq_mod]
  omega

theorem lanes_from_half_subnormal {n : Nat} (x : Vec Nat n) (i : Nat)
    (s u : Nat) (hs : s ≤ 1) (hu : u < 2 ^ 15) (h10 : u < 2 ^ 10)
    (hx : lanes x i = s * 2 ^ 15 + u) :
    lanes (from_half_finite_ftz x) i = 0 := by
  simp only [from_half_finite_ftz, lanes_if_then_else, lanes_binOp,
    lanes_cmpOp, lanes_shiftOp, lanes_splat, lanes_cast, hx]
  simp only [mAnd, mXor, mOr, mNot, mAdd, mShl, decide_eq_true_eq]
  rw [show (32768 : Nat) = 2 ^ 15 from by norm_num]
  rw [and_two_pow_of_add hs hu, xor_two_pow_of_add hs hu]
  rw [if_pos (by omega)]
  simp [Nat.xor_self]

theorem lanes_to_half_normal {n : Nat} (y : Vec Nat n) (i : Nat)
    (s v : Nat) (hs : s ≤ 1) (hv : v < 2 ^ 31) (hge : 947912704 ≤ v)
    (hy : lanes y i = s * 2 ^ 31 + v) :
    lanes (to_half_finite_ftz y) i =
      (s * 2 ^ 15 + (v / 2 ^ 13 - 114688)) % 2 ^ 16 := by
  simp only [to_half_finite_ftz, lanes_if_then_else, lanes_binOp,
    lanes_cmpOp, lanes_shiftOp, lanes_splat, lanes_cast, hy]
  simp only [mAnd, mXor, mOr, mNot, mAdd, mShr, mSub, decide_eq_true_eq]
  rw [show (2147483648 : Nat) = 2 ^ 31 from by norm_num]
  rw [and_two_pow_of_add hs hv, xor_two_pow_of_add hs hv]
  rw [if_neg (by omega)]
  simp only [Nat.zero_xor, Nat.zero_and, Nat.and_zero, Nat.zero_or, Nat.or_zero]
  rw [Nat.and_comm, Nat.and_pow_two_sub_one_eq_mod]
  have hd : v / 2 ^ 13 < 2 ^ 18 := by omega
  have hsh : s * 2 ^ 31 / 2 ^ 16 = s * 2 ^ 15 := by omega
  omega

theorem lanes_to_half_flush {n : Nat} (y : Vec Nat n) (i : Nat)
    (s v : Nat) (hs : s ≤ 1) (hv : v < 2 ^ 31) (hlt : v < 947912704)
    (hy : lanes y i = s * 2 ^ 31 + v) :
    lanes (to_half_finite_ftz y) i = 0 := by
  simp only [to_half_finite_ftz, lanes_if_then_else, lanes_binOp,
    lanes_cmpOp, lanes_shiftOp, lanes_splat, lanes_cast, hy]
  simp only [mAnd, mXor, mOr, mNot, mAdd, mShr, mSub, decide_eq_true_eq]
  rw [show (2147483648 : Nat) = 2 ^ 31 from by norm_num]
  rw [and_two_pow_of_add hs hv, xor_two_pow_of_add hs hv]
  rw [if_pos (by omega)]
  simp [Nat.xor_self]

theorem C7_half_float (n : Nat) (x y : Vec Nat n) (i : Nat) (hi : i < 2 ^ n) :
    (get x (i : Int) < 2 ^ 16 →
      1 ≤ get x (i : Int) / 2 ^ 10 % 2 ^ 5 →
      get x (i : Int) / 2 ^ 10 % 2 ^ 5 ≤ 30 →
      get (to_half_finite_ftz (from_half_finite_ftz x)) (i : Int) =
        get x (i : Int)) ∧
    (get x (i : Int) < 2 ^ 16 → get x (i : Int) / 2 ^ 10 % 2 ^ 5 = 0 →
      get x (i : Int) % 2 ^ 10 ≠ 0 →
      get (from_half_finite_ftz x) (i : Int) = 0) ∧
    (get y (i : Int) < 2 ^ 32 →
      get y (i : Int) ^^^ (get y (i : Int) &&& 2147483648) < 947912704 →
      get (to_half_finite_ftz y) (i : Int) = 0) := by
  rw [get_natCast x i hi, get_natCast y i hi,
    get_natCast (to_half_finite_ftz (from_half_finite_ftz x)) i hi,
    get_natCast (from_half_finite_ftz x) i hi,
    get_natCast (to_half_finite_ftz y) i hi]
  refine ⟨fun h16 he1 he2 => ?_, fun h16 he0 hm => ?_, fun h32 hden => ?_⟩
  · obtain ⟨s, u, hs, hu, hx⟩ :
        ∃ s u, s ≤ 1 ∧ u < 2 ^ 15 ∧ lanes x i = s * 2 ^ 15 + u :=
      ⟨lanes x i / 2 ^ 15, lanes x i % 2 ^ 15, by omega, by omega, by omega⟩
    rw [hx] at he1
    have hu10 : 2 ^ 10 ≤ u := by omega
    have hF := lanes_from_half_normal x i s u hs hu hu10 hx
    have hv : (u + 114688) * 2 ^ 13 < 2 ^ 31 := by omega
    have hge : 947912704 ≤ (u + 114688) * 2 ^ 13 := by omega
    rw [lanes_to_half_normal (from_half_finite_ftz x) i s
      ((u + 114688) * 2 ^ 13) hs hv hge hF, hx]
    omega
  · obtain ⟨s, u, hs, hu, hx⟩ :
        ∃ s u, s ≤ 1 ∧ u < 2 ^ 15 ∧ lanes x i = s * 2 ^ 15 + u :=
      ⟨lanes x i / 2 ^ 15, lanes x i % 2 ^ 15, by omega, by omega, by omega⟩
    rw [hx] at he0
    have hu10 : u < 2 ^ 10 := by omega
    exact lanes_from_half_subnormal x i s u hs hu hu10 hx
  · obtain ⟨s, v, hs, hv, hy⟩ :
        ∃ s v, s ≤ 1 ∧ v < 2 ^ 31 ∧ lanes y i = s * 2 ^ 31 + v :=
      ⟨lanes y i / 2 ^ 31, lanes y i % 2 ^ 31, by omega, by omega, by omega⟩
    rw [hy, show (2147483648 : Nat) = 2 ^ 31 from by norm_num] at hden
    rw [and_two_pow_of_add hs hv, xor_two_pow_of_add hs hv] at hden
    exact lanes_to_half_flush y i s v hs hv hden hy

theorem C7_half_float_witness :
    get (to_half_finite_ftz (from_half_finite_ftz (splat 15360 2)))
        ((0 : Nat) : Int) = get (splat 15360 2) ((0 : Nat) : Int) ∧
    get (from_half_finite_ftz (splat 5 2)) ((0 : Nat) : Int) = 0 ∧
    get (to_half_finite_ftz (splat 100 2)) ((0 : Nat) : Int) = 0 :=
  ⟨(C7_half_float 2 (splat 15360 2) (splat 0 2) 0 (by norm_num)).1 (by decide)
      (by decide) (by decide),
   (C7_half_float 2 (splat 5 2) (splat 0 2) 0 (by norm_num)).2.1 (by decide)
      (by decide) (by decide),
   (C7_half_float 2 (splat 0 2) (splat 100 2) 0 (by norm_num)).2.2 (by decide)
      (by decide)⟩

/-- C1: for every lane count, element type and operand values, each
arithmetic, bitwise, shift and comparison operator produces bit-for-bit
identical results on the native vector-extension path and on the forced
portable recursive lo/hi path.  The scalar operation (including its NaN,
denormal, overflow and shift-amount semantics) is an arbitrary parameter
applied identically by both paths, so the equality covers every operand
value. -/
theorem C1_native_portable_identical :
    (∀ (A B C : Type) (f : A → B → C) (n : Nat) (x : Vec A n) (y : Vec B n),
        nativeBin f x y = binOp f x y) ∧
    (∀ (A B : Type) (f : A → B) (n : Nat) (x : Vec A n),
        nativeUn f x = unOp f x) ∧
    (∀ (A : Type) (f : A → Nat → A) (n : Nat) (x : Vec A n) (k : Nat),
        nativeShift f x k = shiftOp f x k) ∧
    (∀ (A S : Type) (f : A → A → Bool) (top zero : S) (n : Nat)
        (x y : Vec A n),
        nativeCmp f top zero x y = cmpOp f top zero x y) := by
  refine ⟨fun A B C f n x y => ?_, fun A B f n x => ?_,
    fun A f n x k => ?_, fun A S f top zero n x y => ?_⟩
  · exact fromFun_eq_of_lanes _ _ fun i _ => (lanes_binOp f x y i).symm
  · exact fromFun_eq_of_lanes _ _ fun i _ => (lanes_unOp f x i).symm
  · exact fromFun_eq_of_lanes _ _ fun i _ => (lanes_shiftOp f x k i).symm
  · exact fromFun_eq_of_lanes _ _ fun i _ => (lanes_cmpOp f top zero x y i).symm

/-- C2: for every lane count, element type, operands and lane
`i ∈ [0,N)`, `(x OP y)[i] == x[i] OP y[i]`, where `OP` ranges over the
binary operators `+ - * / ^ & |` (each is `binOp` applied to the
underlying scalar operation of `T`, SkVx.h lines 227-234 and 251-258). -/
theorem C2_elementwise (T U : Type) (f : T → T → U) (n : Nat)
    (x y : Vec T n) (i : Nat) (hi : i < 2 ^ n) :
    get (binOp f x y) (i : Int) = f (get x (i : Int)) (get y (i : Int)) := by
  rw [get_natCast _ i hi, get_natCast x i hi, get_natCast y i hi]
  exact lanes_binOp f x y i

theorem C2_elementwise_witness :
    (0 : Nat) < 2 ^ 2 ∧
      get (binOp (mAdd 16) (splat 3 2) (splat 4 2)) ((0 : Nat) : Int) =
        mAdd 16 (get (splat 3 2) ((0 : Nat) : Int))
          (get (splat 4 2) ((0 : Nat) : Int)) :=
  ⟨by norm_num, C2_elementwise Nat Nat (mAdd 16) 2 (splat 3 2) (splat 4 2) 0
    (by norm_num)⟩

/-- C3 (amended): the claimed identity `div255(x) = round(x/255.0)
= (x+127)/255` holds for every lane value `x ≤ 65152` — which covers the
documented domain 0..65025 of products of two 8-bit values — but not on
the rest of the 16-bit domain, where the 16-bit `x+127` wrap-around and
the 8-bit result truncation make it fail (see the counterexample). -/
theorem C3_div255_rounding (n : Nat) (x : Vec Nat n) (i : Nat)
    (hi : i < 2 ^ n) (hx : get x (i : Int) ≤ 65152) :
    get (div255 x) (i : Int) = (get x (i : Int) + 127) / 255 ∧
    ((get (div255 x) (i : Int) : Nat) : Int) = round (((get x (i : Int) : Nat) : ℚ) / 255) := by
  rw [get_natCast x i hi] at hx ⊢
  rw [get_div255 x i hi]
  have h1 : lanes x i + 127 < 2 ^ 16 := by omega
  have h2 : (lanes x i + 127) / 255 < 2 ^ 8 := by
    apply Nat.div_lt_of_lt_mul
    omega
  rw [Nat.mod_eq_of_lt h1, Nat.mod_eq_of_lt h2]
  exact ⟨rfl, (round_div255_eq (lanes x i)).symm⟩

theorem C3_div255_rounding_witness :
    (0 : Nat) < 2 ^ 2 ∧ get (splat 382 2) ((0 : Nat) : Int) ≤ 65152 ∧
      (get (div255 (splat 382 2)) ((0 : Nat) : Int) =
          (get (splat 382 2) ((0 : Nat) : Int) + 127) / 255 ∧
        ((get (div255 (splat 382 2)) ((0 : Nat) : Int) : Nat) : Int) =
          round (((get (splat 382 2) ((0 : Nat) : Int) : Nat) : ℚ) / 255)) :=
  ⟨by norm_num, by decide,
    C3_div255_rounding 2 (splat 382 2) 0 (by norm_num) (by decide)⟩

/-- C3 counterexample: at the 16-bit lane value 65535 (explicitly included
by the claim), `div255` returns 0 — `(65535+127)` wraps to 126 in
`uint16_t` lanes, `126/255 = 0` — while `round(65535/255.0) = 257` and
exact integer `(65535+127)/255 = 257`, so the claimed equality fails. -/
theorem C3_div255_counterexample :
    ((get (div255 (splat 65535 2)) (0 : Int) : Nat) : Int) ≠
      round ((65535 : ℚ) / 255) ∧
    get (div255 (splat 65535 2)) (0 : Int) ≠ (65535 + 127) / 255 := by
  have h : get (div255 (splat 65535 2)) (0 : Int) = 0 := by decide
  constructor
  · rw [h]
    have h2 := round_div255_eq 65535
    rw [show ((65535 : Nat) : ℚ) = (65535 : ℚ) by norm_cast] at h2
    rw [h2]
    norm_num
  · rw [h]
    norm_num

/-- C4: `approx_scale` is within one unit of the rounding divide-by-255 of
the exact 16-bit product, and is exact when either operand is 0 or 255:
`approx_scale(255,y) = y`, `approx_scale(0,y) = 0`, and symmetrically in
the second operand. -/
theorem C4_approx_scale (n : Nat) (x y : Vec Nat n) (i : Nat)
    (hi : i < 2 ^ n) (hx : get x (i : Int) ≤ 255)
    (hy : get y (i : Int) ≤ 255) :
    |((get (approx_scale x y) (i : Int) : Nat) : Int) -
        ((get (div255 (mull x y)) (i : Int) : Nat) : Int)| ≤ 1 ∧
    (get x (i : Int) = 255 → get (approx_scale x y) (i : Int) = get y (i : Int)) ∧
    (get x (i : Int) = 0 → get (approx_scale x y) (i : Int) = 0) ∧
    (get y (i : Int) = 255 → get (approx_scale x y) (i : Int) = get x (i : Int)) ∧
    (get y (i : Int) = 0 → get (approx_scale x y) (i : Int) = 0) := by
  rw [get_natCast x i hi] at hx
  rw [get_natCast y i hi] at hy
  rw [get_natCast x i hi, get_natCast y i hi, get_approx_scale x y i hi,
    get_div255 _ i hi, lanes_mull]
  have hab : lanes x i * lanes y i ≤ lanes x i * 255 :=
    Nat.mul_le_mul_left _ hy
  have hp : lanes x i * lanes y i ≤ 255 * 255 := Nat.mul_le_mul hx hy
  have h1 : lanes x i * lanes y i % 2 ^ 16 = lanes x i * lanes y i :=
    Nat.mod_eq_of_lt (by omega)
  rw [h1]
  have h2 : (lanes x i * lanes y i + lanes x i) % 2 ^ 16 =
      lanes x i * lanes y i + lanes x i := Nat.mod_eq_of_lt (by omega)
  have h3 : (lanes x i * lanes y i + 127) % 2 ^ 16 =
      lanes x i * lanes y i + 127 := Nat.mod_eq_of_lt (by omega)
  rw [h2, h3]
  have h4 : (lanes x i * lanes y i + lanes x i) / 256 % 2 ^ 8 =
      (lanes x i * lanes y i + lanes x i) / 256 := Nat.mod_eq_of_lt (by omega)
  have h5 : (lanes x i * lanes y i + 127) / 255 % 2 ^ 8 =
      (lanes x i * lanes y i + 127) / 255 := Nat.mod_eq_of_lt (by omega)
  rw [h4, h5]
  refine ⟨?_, fun h => ?_, fun h => ?_, fun h => ?_, fun h => ?_⟩
  · rw [abs_sub_le_iff]
    constructor <;> omega
  · rw [h]
    omega
  · rw [h]
    omega
  · rw [h]
    omega
  · rw [h]
    omega

theorem C4_approx_scale_witness :
    (0 : Nat) < 2 ^ 2 ∧ get (splat 255 2) ((0 : Nat) : Int) ≤ 255 ∧
      get (splat 37 2) ((0 : Nat) : Int) ≤ 255 ∧
      get (approx_scale (splat 255 2) (splat 37 2)) ((0 : Nat) : Int) =
        get (splat 37 2) ((0 : Nat) : Int) :=
  ⟨by norm_num, by decide, by decide,
    (C4_approx_scale 2 (splat 255 2) (splat 37 2) 0 (by norm_num) (by decide)
        (by decide)).2.1 (by decide)⟩

/-- C5: for every mask vector whose lanes are all-bits-one or
all-bits-zero and all operand bit patterns (hence including NaN payloads
and negative zero, which are just `w`-bit patterns here), `if_then_else`
returns per lane exactly the bit pattern of `t` under an all-ones
condition lane and exactly the bit pattern of `e` under an all-zeros one:
selection is a pure bit operation. -/
theorem C5_select (w n : Nat) (c t e : Vec Nat n) (i : Nat) (hi : i < 2 ^ n)
    (hc : get c (i : Int) = 0 ∨ get c (i : Int) = 2 ^ w - 1)
    (ht : get t (i : Int) < 2 ^ w) (he : get e (i : Int) < 2 ^ w) :
    get (if_then_else w c t e) (i : Int) =
      if get c (i : Int) = 2 ^ w - 1 then get t (i : Int)
      else get e (i : Int) := by
  rw [get_natCast _ i hi] at hc ht he ⊢
  rw [get_natCast t i hi, get_natCast e i hi, get_natCast c i hi,
    lanes_if_then_else]
  exact select_bits w _ _ _ hc ht he

theorem C5_select_witness :
    (0 : Nat) < 2 ^ 1 ∧
    (get (ofList [255, 0] 1) ((0 : Nat) : Int) = 0 ∨
      get (ofList [255, 0] 1) ((0 : Nat) : Int) = 2 ^ 8 - 1) ∧
    get (splat 7 1) ((0 : Nat) : Int) < 2 ^ 8 ∧
    get (splat 9 1) ((0 : Nat) : Int) < 2 ^ 8 ∧
    get (if_then_else 8 (ofList [255, 0] 1) (splat 7 1) (splat 9 1))
        ((0 : Nat) : Int) =
      if get (ofList [255, 0] 1) ((0 : Nat) : Int) = 2 ^ 8 - 1 then
        get (splat 7 1) ((0 : Nat) : Int)
      else get (splat 9 1) ((0 : Nat) : Int) :=
  ⟨by norm_num, Or.inr (by decide), by decide, by decide,
    C5_select 8 1 (ofList [255, 0] 1) (splat 7 1) (splat 9 1) 0 (by decide)
      (Or.inr (by decide)) (by decide) (by decide)⟩

/-- C6: each of the six relational operators fills every result lane with
either the all-bits-one pattern `2^w - 1` (`~0` of the `w`-bit mask type,
lines 243-248) or all-bits-zero, never any other pattern; and the mask
element type `M<T>` is `int32_t` for `float`, `int64_t` for `double`, and
`T` itself otherwise, always of the same lane width. -/
theorem C6_comparison_masks :
    (∀ (T : Type) (f : T → T → Bool) (w n : Nat) (x y : Vec T n) (i : Nat),
        i < 2 ^ n →
        get (cmpOp f (2 ^ w - 1) 0 x y) (i : Int) = 2 ^ w - 1 ∨
        get (cmpOp f (2 ^ w - 1) 0 x y) (i : Int) = 0) ∧
    Mask .f32 = .i32 ∧ Mask .f64 = .i64 ∧
    (∀ t : CTy, t ≠ .f32 → t ≠ .f64 → Mask t = t) ∧
    (∀ t : CTy, width (Mask t) = width t) := by
  refine ⟨fun T f w n x y i hi => ?_, rfl, rfl, fun t h32 h64 => ?_,
    fun t => ?_⟩
  · rw [get_natCast _ i hi, lanes_cmpOp]
    by_cases h : f (lanes x i) (lanes y i) <;> simp [h]
  · cases t <;> simp_all [Mask]
  · cases t <;> rfl

theorem C6_comparison_masks_witness :
    ((0 : Nat) < 2 ^ 1 ∧
      (get (cmpOp (fun a b : Nat => decide (a ≤ b)) (2 ^ 8 - 1) 0
            (splat 3 1) (splat 5 1)) ((0 : Nat) : Int) = 2 ^ 8 - 1 ∨
        get (cmpOp (fun a b : Nat => decide (a ≤ b)) (2 ^ 8 - 1) 0
            (splat 3 1) (splat 5 1)) ((0 : Nat) : Int) = 0)) ∧
    (CTy.u16 ≠ CTy.f32 ∧ CTy.u16 ≠ CTy.f64 ∧ Mask CTy.u16 = CTy.u16) :=
  ⟨⟨by norm_num,
      C6_comparison_masks.1 Nat (fun a b => decide (a ≤ b)) 8 1
        (splat 3 1) (splat 5 1) 0 (by norm_num)⟩,
    by decide, by decide, C6_comparison_masks.2.2.2.1 CTy.u16 (by decide)
      (by decide)⟩

/-- C8 (amended): `shuffle` produces a vector whose length `2^m` equals
the number of indices supplied and whose output lane `k` is `x[Ix[k]]`
for every `k`; indices may repeat or omit source lanes, and the output
width may be narrower than, equal to, or — contrary to the original
claim — wider than the source: any power of two the type admits. -/
theorem C8_shuffle (T : Type) [Zero T] (m n : Nat) (ixs : List Int)
    (x : Vec T n) (hlen : ixs.length = 2 ^ m) (k : Nat) (hk : k < 2 ^ m) :
    get (shuffle ixs x m) (k : Int) = get x (ixs.getD k 0) := by
  have hk2 : k < ixs.length := by omega
  have hk3 : k < (ixs.map (fun j => get x j)).length := by
    simpa using hk2
  rw [shuffle, get_ofList m _ k hk, List.getD_eq_getElem _ _ hk3,
    List.getD_eq_getElem _ _ hk2, List.getElem_map]

theorem C8_shuffle_witness :
    ([2, 1, 0, 3] : List Int).length = 2 ^ 2 ∧ (0 : Nat) < 2 ^ 2 ∧
      get (shuffle [2, 1, 0, 3] (ofList [1, 2, 3, 4] 2) 2) ((0 : Nat) : Int) =
        get (ofList [1, 2, 3, 4] 2) (([2, 1, 0, 3] : List Int).getD 0 0) :=
  ⟨by decide, by norm_num,
    C8_shuffle Nat 2 2 [2, 1, 0, 3] (ofList [1, 2, 3, 4] 2) (by decide) 0
      (by norm_num)⟩

/-- C8 counterexample: the source's own usage example
`shuffle<2,1,2,1,2,1,2,1>(rgba)` (SkVx.h line 462) maps a 4-lane vector to
a well-defined 8-lane result whose lane `k` is `x[Ix[k]]`, so a shuffle
result can be strictly wider than its source, refuting the claim's
"never wider" restriction. -/
theorem C8_shuffle_counterexample :
    shuffle [2, 1, 2, 1, 2, 1, 2, 1] (ofList [10, 20, 30, 40] 2) 3 =
      ofList [30, 20, 30, 20, 30, 20, 30, 20] 3 ∧ ¬ (2 ^ 3 ≤ 2 ^ 2) :=
  ⟨rfl, by norm_num⟩

/-- C9: `operator[]` is total and never reads out of bounds: an in-range
index returns its lane, an index at or past `N` returns lane `N-1`, and a
negative index returns lane 0 (each level compares only `i < N/2` and the
`N = 1` base case ignores the index, SkVx.h lines 102-103 and 128-129). -/
theorem C9_indexing_total_clamped (T : Type) (n : Nat) (x : Vec T n)
    (i : Int) :
    (0 ≤ i → i < (2 ^ n : Int) → get x i = lanes x i.toNat) ∧
    ((2 ^ n : Int) ≤ i → get x i = lanes x (2 ^ n - 1)) ∧
    (i < 0 → get x i = lanes x 0) := by
  refine ⟨fun h0 hlt => ?_, fun h => get_of_ge x i h, fun h => get_of_neg x i h⟩
  have hn : i.toNat < 2 ^ n := by
    have : ((2 ^ n : Nat) : Int) = (2 ^ n : Int) := by push_cast; ring
    omega
  have := get_natCast x i.toNat hn
  rwa [Int.toNat_of_nonneg h0] at this

theorem C9_indexing_total_clamped_witness :
    get (splat 9 2) (1 : Int) = lanes (splat 9 2) ((1 : Int)).toNat ∧
    get (splat 9 2) (7 : Int) = lanes (splat 9 2) (2 ^ 2 - 1) ∧
    get (splat 9 2) (-3 : Int) = lanes (splat 9 2) 0 :=
  ⟨(C9_indexing_total_clamped Nat 2 (splat 9 2) 1).1 (by norm_num) (by norm_num),
   (C9_indexing_total_clamped Nat 2 (splat 9 2) 7).2.1 (by norm_num),
   (C9_indexing_total_clamped Nat 2 (splat 9 2) (-3)).2.2 (by norm_num)⟩

/-- C10: the initializer-list constructor ignores surplus values (it reads
only `min(list length, N)` of them), zero-fills missing trailing lanes,
and at `N = 1` takes the first value of a non-empty list and 0 from an
empty one; lane `i` always holds the `i`-th listed value when one exists
and 0 otherwise. -/
theorem C10_initializer_list :
    (∀ (n : Nat) (xs : List Nat) (i : Nat), i < 2 ^ n →
        get (ofList xs n) (i : Int) = xs.getD i 0) ∧
    ofList ([] : List Nat) 0 = (0 : Nat) ∧
    (∀ (x : Nat) (t : List Nat), ofList (x :: t) 0 = x) := by
  refine ⟨fun n xs i hi => get_ofList n xs i hi, rfl, fun x t => ?_⟩
  show (if 0 < min (t.length + 1) (2 ^ 0) then (x :: t).getD 0 0 else 0) = x
  rw [if_pos (by simp)]
  rfl

theorem C10_initializer_list_witness :
    (1 : Nat) < 2 ^ 1 ∧
      get (ofList [5, 6, 7] 1) ((1 : Nat) : Int) = [5, 6, 7].getD 1 0 :=
  ⟨by norm_num, C10_initializer_list.1 1 [5, 6, 7] 1 (by norm_num)⟩

end skvx
